import Mathlib

/-!
Verification of the SimpleMusicSync incremental reconciliation engine
(`main.go`): the sync record store, the change-detection predicate, the
command tokenizer, the walk that builds the new record set, and the
optional deletion pass.  Go machine integers (`int64` sizes) are modelled
as `Int`; `time.Time` values compared with `Equal` are modelled as `Int`
timestamps; filesystem effects (stat, target existence, command exit,
file removal) are passed in explicitly.
-/

namespace SimpleMusicSync

/-- The four whitespace runes handled by the tokenizer switch; within that
branch Go also consults `unicode.IsSpace`, which is true on all four. -/
def goIsSpace (r : Char) : Bool :=
  r = ' ' || r = '\t' || r = '\n' || r = '\r'

/-- Go `strings.HasPrefix` on rune lists (`goHasPrefixList s p`). -/
def goHasPrefixList : List Char → List Char → Bool
  | _, [] => true
  | [], _ :: _ => false
  | c :: cs, p :: ps => c = p && goHasPrefixList cs ps

/-- Go `strings.HasSuffix` on rune lists. -/
def goHasSuffixList (s suf : List Char) : Bool :=
  goHasPrefixList s.reverse suf.reverse

/-- Go `strings.TrimPrefix`. -/
def goTrimPrefixStr (s pre : String) : String :=
  if goHasPrefixList s.data pre.data then String.mk (s.data.drop pre.data.length) else s

/-- Go `strings.TrimSuffix`. -/
def goTrimSuffixStr (s suf : String) : String :=
  if goHasSuffixList s.data suf.data then
    String.mk (s.data.take (s.data.length - suf.data.length))
  else s

/-- Go `strings.ToLower` (ASCII case mapping suffices for extension lists). -/
def goToLower (s : String) : String :=
  String.mk (s.data.map Char.toLower)

/-- Go `strings.EqualFold`, simple case folding. -/
def goEqualFold (s t : String) : Bool :=
  goToLower s == goToLower t

/-- The single-quote rune. -/
def sqChar : Char := Char.ofNat 39

/-- The single-quote rune as a one-character string. -/
def sqStr : String := String.singleton sqChar

/-- Character loop of `splitCommand` (main.go:448-491).  State: emitted
`args`, the current token builder, the open quote rune (`none` for Go
`inQuote == 0`), and the pending-escape flag. -/
def splitCommandAux (args : List String) (current : List Char)
    (inQuote : Option Char) (escape : Bool) : List Char → List String
  | [] => if current.length > 0 then args ++ [String.mk current] else args
  | r :: rest =>
    if escape then
      splitCommandAux args (current ++ [r]) inQuote false rest
    else if r = '\\' then
      splitCommandAux args current inQuote true rest
    else if r = sqChar || r = '"' then
      match inQuote with
      | none => splitCommandAux args current (some r) false rest
      | some q =>
        if q = r then splitCommandAux args current none false rest
        else splitCommandAux args (current ++ [r]) inQuote false rest
    else if goIsSpace r then
      match inQuote with
      | none =>
        if current.length > 0 || !goIsSpace r then
          splitCommandAux (args ++ [String.mk current]) [] none false rest
        else
          splitCommandAux args current none false rest
      | some _ => splitCommandAux args (current ++ [r]) inQuote false rest
    else
      splitCommandAux args (current ++ [r]) inQuote false rest

/-- Function `splitCommand` (main.go:448-491): splits a command template into an
argument vector honouring single quotes, double quotes and backslash
escapes. -/
def splitCommand (cmd : String) : List String :=
  splitCommandAux [] [] none false cmd.data

/-- The configuration surface consumed by the engine (`optionsType`,
main.go:245-255); the source/target roots are abstracted away because all
paths in the model are kept relative to them. -/
structure optionsType where
  targetAudioExtension : String
  targetImageExtension : String
  sourceAudioExtensions : List String
  sourceImageExtensions : List String
  ffmpegAudioCommand : String
  ffmpegImageCommand : String
  deleteRemovedFiles : Bool
deriving DecidableEq

/-- Structure `SyncDBEntry` (main.go:259-265).  `Size` models `int64`, `ModTime`
models a `time.Time` compared with `Equal`. -/
structure SyncDBEntry where
  SourcePath : String
  TargetPath : String
  Size : Int
  ModTime : Int
  Command : String
deriving DecidableEq

/-- Structure `syncDB` (main.go:267-269). -/
structure syncDB where
  Entries : List SyncDBEntry
deriving DecidableEq

/-- Function `isAudioExtension` (main.go:496-503), with the global `options` made an
explicit argument. -/
def isAudioExtension (cfg : optionsType) (ext : String) : Bool :=
  cfg.sourceAudioExtensions.any (fun e => goEqualFold ext e)

/-- Function `isImageExtension` (main.go:508-515). -/
def isImageExtension (cfg : optionsType) (ext : String) : Bool :=
  cfg.sourceImageExtensions.any (fun e => goEqualFold ext e)

/-- The lookup loop over `oldDB.Entries` (main.go:343-349): the first entry
whose `SourcePath` equals the relative path, if any. -/
def findEntry (entries : List SyncDBEntry) (relPath : String) : Option SyncDBEntry :=
  entries.find? (fun e => e.SourcePath == relPath)

/-- The `needsProcessing` expression (main.go:352-356), with the stat of the
source file and the `fileExists(targetFile)` test passed in as values. -/
def needsProcessing (entries : List SyncDBEntry) (relPath : String)
    (size modTime : Int) (ffmpegCmd : String) (targetExists : Bool) : Bool :=
  match findEntry entries relPath with
  | none => true
  | some e =>
    (e.Size != size) || (e.Command != ffmpegCmd) || (e.ModTime != modTime) || !targetExists

/-- The change-detection policy as the specification words it: reprocess when
no prior entry has this source path, or the first such entry differs in
size, modification time or recorded command, or the target file is missing. -/
def needsProcessingSpec (entries : List SyncDBEntry) (relPath : String)
    (size modTime : Int) (ffmpegCmd : String) (targetExists : Bool) : Prop :=
  (∀ e ∈ entries, e.SourcePath ≠ relPath) ∨
  (∃ e, findEntry entries relPath = some e ∧
    (e.Size ≠ size ∨ e.ModTime ≠ modTime ∨ e.Command ≠ ffmpegCmd)) ∨
  targetExists = false

/-- One file yielded by `filepath.Walk` over the source root: its path
relative to the source root, its `filepath.Ext` (leading dot, original
case), its stat data, and whether the external command / copy for it would
succeed if attempted. -/
structure WalkedFile where
  relPath : String
  srcExt : String
  size : Int
  modTime : Int
  procOk : Bool
deriving DecidableEq

/-- Variable `ext` at main.go:321: lowercased extension without the leading dot. -/
def extOf (f : WalkedFile) : String :=
  goTrimPrefixStr (goToLower f.srcExt) "."

/-- A walked file is handled at all iff its extension is in the audio or the
image list (main.go:322-327). -/
def mediaOf (cfg : optionsType) (f : WalkedFile) : Bool :=
  isAudioExtension cfg (extOf f) || isImageExtension cfg (extOf f)

/-- The effective command template for a file (main.go:331-336): the audio
command unless the image class overrides it. -/
def cmdOf (cfg : optionsType) (f : WalkedFile) : String :=
  if isImageExtension cfg (extOf f) then cfg.ffmpegImageCommand else cfg.ffmpegAudioCommand

/-- The target path relative to the target root (main.go:338-341): the
relative source path with its extension replaced by the class target
extension.  The `Join`/`Rel` round trip through the target root is the
identity on such relative paths. -/
def targetRelOf (cfg : optionsType) (f : WalkedFile) : String :=
  goTrimSuffixStr f.relPath f.srcExt ++ "." ++
    (if isImageExtension cfg (extOf f) then cfg.targetImageExtension
     else cfg.targetAudioExtension)

/-- The record appended to `newDB.Entries` for a file (main.go:384-390). -/
def entryOf (cfg : optionsType) (f : WalkedFile) : SyncDBEntry :=
  { SourcePath := f.relPath
    TargetPath := targetRelOf cfg f
    Size := f.size
    ModTime := f.modTime
    Command := cmdOf cfg f }

/-- Outcome of the walk callback body for one file. -/
inductive FileAction where
  | notMedia
  | emptyCommand
  | procFailed
  | processed
  | skipped
deriving DecidableEq

/-- The walk callback body (main.go:316-392) for one file: classification,
change detection, command execution or copy, and the record appended to the
new set.  `tEx` is `fileExists` on target paths (relative to the target
root); the append of `some` entry models main.go:384-390, `none` means the
callback returned without appending. -/
def processFile (cfg : optionsType) (oldEntries : List SyncDBEntry)
    (tEx : String → Bool) (f : WalkedFile) : FileAction × Option SyncDBEntry :=
  if !isAudioExtension cfg (extOf f) && !isImageExtension cfg (extOf f) then
    (FileAction.notMedia, none)
  else
    let ffmpegCmd := cmdOf cfg f
    let relTargetPath := targetRelOf cfg f
    let np := needsProcessing oldEntries f.relPath f.size f.modTime ffmpegCmd
      (tEx relTargetPath)
    if np then
      if ffmpegCmd != "" then
        if (splitCommand ffmpegCmd).length == 0 then (FileAction.emptyCommand, none)
        else if f.procOk then (FileAction.processed, some (entryOf cfg f))
        else (FileAction.procFailed, none)
      else if f.procOk then (FileAction.processed, some (entryOf cfg f))
      else (FileAction.procFailed, none)
    else (FileAction.skipped, some (entryOf cfg f))

/-- The `filepath.Walk` loop over the source files (main.go:316-392): entries are
appended in order; the first per-file error stops the walk (the callback
returns the error) with the entries accumulated so far and the error flag
set. -/
def walkAll (cfg : optionsType) (oldEntries : List SyncDBEntry)
    (tEx : String → Bool) : List WalkedFile → List SyncDBEntry × List FileAction × Bool
  | [] => ([], [], false)
  | f :: rest =>
    let (a, eo) := processFile cfg oldEntries tEx f
    if a = FileAction.procFailed then ([], [a], true)
    else
      let (es, as, err) := walkAll cfg oldEntries tEx rest
      (eo.toList ++ es, a :: as, err)

/-- Lines main.go:394-399: a walk error prints and exits with status 1, so the new
set is saved (`newDB.Save(dbPath)`) only when the walk returned no error;
`some` is the saved record set, `none` means the run exited unsaved. -/
def mainRun (cfg : optionsType) (oldEntries : List SyncDBEntry)
    (tEx : String → Bool) (files : List WalkedFile) : Option (List SyncDBEntry) :=
  let (es, _, err) := walkAll cfg oldEntries tEx files
  if err then none else some es

/-- The `expected` set of the deletion pass (main.go:402-405): the target
paths of the new record set. -/
def expectedTargets (es : List SyncDBEntry) : List String :=
  es.map (fun e => e.TargetPath)

/-- The skip test of the deletion callback (main.go:412): the store file
itself or a path in the expected set. -/
def isStoreOrExpected (expected : List String) (p : String) : Bool :=
  p == ".syncdb.json" || expected.contains p

/-- The deletion walk over the target tree (main.go:407-417).  Each target
file comes with its path relative to the target root and whether
`os.Remove` on it would succeed.  A failed removal makes the callback
return the error, which stops `filepath.Walk`; the walk result itself is
discarded by the caller.  Returns the successfully removed paths and
whether the walk was aborted by a removal failure. -/
def deleteWalk (expected : List String) : List (String × Bool) → List String × Bool
  | [] => ([], false)
  | (p, ok) :: rest =>
    if isStoreOrExpected expected p then deleteWalk expected rest
    else if ok then
      let (ds, ab) := deleteWalk expected rest
      (p :: ds, ab)
    else ([], true)

/-- The optional cleanup pass (main.go:401-418): runs only when
`deleteRemovedFiles` is set. -/
def runDeletePass (flag : Bool) (es : List SyncDBEntry)
    (targets : List (String × Bool)) : List String × Bool :=
  if flag then deleteWalk (expectedTargets es) targets else ([], false)

/-- Method `syncDB.Load` (main.go:541-547), called on the zero-value receiver in
`main`.  `readResult` is the outcome of `os.ReadFile` (`none` for any read
error, the missing-file case included, after which the method returns with
the receiver untouched); `unmarshal` is `json.Unmarshal` acting on the
receiver: it yields the receiver state it leaves behind together with its
error flag, and Load discards that flag (main.go:546 ignores the return
value).  Per its documentation, Unmarshal validates syntactically invalid
input before any decoding and leaves the receiver untouched then, but on
valid JSON with wrongly-typed fields it skips the offending field,
completes what it can, and may leave the receiver partially populated
while still reporting an error. -/
def syncDB.Load (db : syncDB) (readResult : Option String)
    (unmarshal : String → syncDB → syncDB × Bool) : syncDB :=
  match readResult with
  | none => db
  | some data => (unmarshal data db).1

/-- Modelled from the spec: the include/exclude admission filter of the
Path Classifier (`admit`, spec section 4.3) is documented in the README
(`--include` / `--exclude` flags, "Includes override excludes") but the
function itself is not among the sources available here.  A pattern is
modelled as a predicate on the relative path; a malformed pattern is the
never-matching predicate.  Policy, in the words of the spec: a path
matching at least one include pattern is admitted regardless of excludes;
otherwise a path matching at least one exclude pattern is rejected;
otherwise the path is admitted. -/
def admitPath (includes excludes : List (String → Bool)) (relPath : String) : Bool :=
  if includes.any (fun pat => pat relPath) then true
  else if excludes.any (fun pat => pat relPath) then false
  else true

/-- Model of the regular expression `.*\.tmp$`: matches iff the path ends
in `.tmp`. -/
def matchAnyTmp (s : String) : Bool :=
  goHasSuffixList s.data ".tmp".data

/-- Model of the regular expression `keep\.tmp$`: matches iff the path ends
in `keep.tmp`. -/
def matchKeepTmp (s : String) : Bool :=
  goHasSuffixList s.data "keep.tmp".data

/-- A concrete copy-mode configuration for evaluating the engine. -/
def cfgW : optionsType :=
  { targetAudioExtension := "opus"
    targetImageExtension := "jpeg"
    sourceAudioExtensions := ["mp3", "flac", "opus"]
    sourceImageExtensions := ["jpg", "jpeg", "png", "gif"]
    ffmpegAudioCommand := ""
    ffmpegImageCommand := ""
    deleteRemovedFiles := false }

/-- A concrete source file whose copy succeeds. -/
def fW : WalkedFile :=
  { relPath := "song.mp3", srcExt := ".mp3", size := 10, modTime := 5, procOk := true }

/-- The same source file with a failing copy. -/
def fBadW : WalkedFile :=
  { relPath := "song.mp3", srcExt := ".mp3", size := 10, modTime := 5, procOk := false }

/-- A target-existence oracle for a first run into an empty target tree. -/
def tExNoneW : String → Bool := fun _ => false

/-- A target-existence oracle after a successful first run. -/
def tExAllW : String → Bool := fun _ => true

/-- A store content that is valid JSON but types the `size` field as a
string (braces written as escapes): on disk this would be
`{"entries":[{"sourcePath":"a","size":"ten"}]}`. -/
def jsonTypeErrW : String :=
  "\x7b\"entries\":[\x7b\"sourcePath\":\"a\",\"size\":\"ten\"\x7d]\x7d"

/-- Modelled from the documented behaviour of `encoding/json.Unmarshal`
(whose error main.go:546 discards) on the store contents `jsonTypeErrW`:
the input is valid JSON, so decoding proceeds; `sourcePath` is decoded into
the first entry, the wrongly-typed `size` field is skipped and the
remaining fields stay at their zero values, and an `UnmarshalTypeError` is
returned.  On any other input this model fails without touching the
receiver. -/
def unmarshalTypeErrW : String → syncDB → syncDB × Bool :=
  fun data db =>
    if data = jsonTypeErrW then
      (⟨[{ SourcePath := "a", TargetPath := "", Size := 0, ModTime := 0,
           Command := "" }]⟩, true)
    else (db, true)

/-- Modelled from the documented behaviour of `encoding/json.Unmarshal` on
input that is not valid JSON: the whole input is validated before any
decoding, so the receiver is left untouched and a `SyntaxError` is
returned (which main.go:546 discards). -/
def unmarshalSyntaxErrW : String → syncDB → syncDB × Bool :=
  fun _ db => (db, true)

end SimpleMusicSync


namespace SimpleMusicSync

theorem walkAll_nil (cfg : optionsType) (old : List SyncDBEntry) (tEx : String → Bool) :
    walkAll cfg old tEx [] = ([], [], false) := rfl

theorem walkAll_cons (cfg : optionsType) (old : List SyncDBEntry) (tEx : String → Bool)
    (f : WalkedFile) (rest : List WalkedFile) :
    walkAll cfg old tEx (f :: rest) =
      if (processFile cfg old tEx f).1 = FileAction.procFailed then
        ([], [(processFile cfg old tEx f).1], true)
      else
        ((processFile cfg old tEx f).2.toList ++ (walkAll cfg old tEx rest).1,
         (processFile cfg old tEx f).1 :: (walkAll cfg old tEx rest).2.1,
         (walkAll cfg old tEx rest).2.2) := by
  show (match processFile cfg old tEx f with
    | (a, eo) =>
      if a = FileAction.procFailed then ([], [a], true)
      else
        match walkAll cfg old tEx rest with
        | (es, as, err) => (eo.toList ++ es, a :: as, err)) = _
  rcases hp : processFile cfg old tEx f with ⟨a, eo⟩
  rcases hw : walkAll cfg old tEx rest with ⟨es, asa⟩
  by_cases ha : a = FileAction.procFailed <;> simp [ha]

theorem processFile_notMedia (cfg : optionsType) (old : List SyncDBEntry)
    (tEx : String → Bool) (f : WalkedFile) :
    (processFile cfg old tEx f).1 = FileAction.notMedia ↔ mediaOf cfg f = false := by
  by_cases hA : isAudioExtension cfg (extOf f) <;>
    by_cases hB : isImageExtension cfg (extOf f) <;>
    simp [processFile, mediaOf, hA, hB] <;>
    (first | (split_ifs <;> simp_all) | simp_all)

theorem processFile_of_notMedia (cfg : optionsType) (old : List SyncDBEntry)
    (tEx : String → Bool) (f : WalkedFile) (h : mediaOf cfg f = false) :
    processFile cfg old tEx f = (FileAction.notMedia, none) := by
  simp only [mediaOf, Bool.or_eq_false_iff] at h
  simp [processFile, h.1, h.2]

theorem processFile_skipped (cfg : optionsType) (old : List SyncDBEntry)
    (tEx : String → Bool) (f : WalkedFile) :
    (processFile cfg old tEx f).1 = FileAction.skipped ↔
      (mediaOf cfg f = true ∧
        needsProcessing old f.relPath f.size f.modTime (cmdOf cfg f)
          (tEx (targetRelOf cfg f)) = false) := by
  by_cases hA : isAudioExtension cfg (extOf f) <;>
    by_cases hB : isImageExtension cfg (extOf f) <;>
    simp [processFile, mediaOf, hA, hB] <;>
    (first | (split_ifs <;> simp_all) | simp_all)

theorem processFile_snd (cfg : optionsType) (old : List SyncDBEntry)
    (tEx : String → Bool) (f : WalkedFile) :
    (processFile cfg old tEx f).2 =
      if (processFile cfg old tEx f).1 = FileAction.processed ∨
          (processFile cfg old tEx f).1 = FileAction.skipped then
        some (entryOf cfg f)
      else none := by
  by_cases hA : isAudioExtension cfg (extOf f) <;>
    by_cases hB : isImageExtension cfg (extOf f) <;>
    simp [processFile, mediaOf, hA, hB] <;>
    (first | (split_ifs <;> simp_all) | simp_all)

theorem processFile_emptyCommand (cfg : optionsType) (old : List SyncDBEntry)
    (tEx : String → Bool) (f : WalkedFile) :
    (processFile cfg old tEx f).1 = FileAction.emptyCommand ↔
      (mediaOf cfg f = true ∧
        needsProcessing old f.relPath f.size f.modTime (cmdOf cfg f)
          (tEx (targetRelOf cfg f)) = true ∧
        cmdOf cfg f ≠ "" ∧ splitCommand (cmdOf cfg f) = []) := by
  by_cases hA : isAudioExtension cfg (extOf f) <;>
    by_cases hB : isImageExtension cfg (extOf f) <;>
    simp [processFile, mediaOf, hA, hB] <;>
    (first | (split_ifs <;> simp_all) | simp_all)

theorem processFile_procFailed (cfg : optionsType) (old : List SyncDBEntry)
    (tEx : String → Bool) (f : WalkedFile) :
    (processFile cfg old tEx f).1 = FileAction.procFailed ↔
      (mediaOf cfg f = true ∧
        needsProcessing old f.relPath f.size f.modTime (cmdOf cfg f)
          (tEx (targetRelOf cfg f)) = true ∧
        f.procOk = false ∧
        (cmdOf cfg f = "" ∨ splitCommand (cmdOf cfg f) ≠ [])) := by
  by_cases hA : isAudioExtension cfg (extOf f) <;>
    by_cases hB : isImageExtension cfg (extOf f) <;>
    simp [processFile, mediaOf, hA, hB] <;>
    (first | (split_ifs <;> simp_all) | simp_all)

theorem findEntry_eq_none_iff (entries : List SyncDBEntry) (relPath : String) :
    findEntry entries relPath = none ↔ ∀ e ∈ entries, e.SourcePath ≠ relPath := by
  unfold findEntry
  rw [List.find?_eq_none]
  constructor
  · intro h e he
    have := h e he
    simpa using this
  · intro h e he
    simpa using h e he

theorem findEntry_eq_some (entries : List SyncDBEntry) (relPath : String)
    (e : SyncDBEntry) (h : findEntry entries relPath = some e) :
    e ∈ entries ∧ e.SourcePath = relPath := by
  refine ⟨List.mem_of_find?_eq_some h, ?_⟩
  have := List.find?_some h
  simpa using this

/-- C1: for every walked file classified as audio or image, the engine's
`needsProcessing` value is true iff no previous entry has the file's
relative source path, or the first such entry differs in size, modification
time or recorded command from the current stat and effective command, or
the expected target file is missing; equivalently the walk body reaches the
skip branch exactly when the file is media and this pure predicate of
(previous entry, current stat, current command, target existence) is
false. -/
theorem needsProcessing_matches_spec :
    (∀ (entries : List SyncDBEntry) (relPath : String) (size modTime : Int)
        (ffmpegCmd : String) (targetExists : Bool),
      needsProcessing entries relPath size modTime ffmpegCmd targetExists = true ↔
        needsProcessingSpec entries relPath size modTime ffmpegCmd targetExists) ∧
    (∀ (cfg : optionsType) (old : List SyncDBEntry) (tEx : String → Bool)
        (f : WalkedFile),
      (processFile cfg old tEx f).1 = FileAction.skipped ↔
        (mediaOf cfg f = true ∧
          needsProcessing old f.relPath f.size f.modTime (cmdOf cfg f)
            (tEx (targetRelOf cfg f)) = false)) := by
  constructor
  · intro entries relPath size modTime ffmpegCmd targetExists
    unfold needsProcessing needsProcessingSpec
    cases h : findEntry entries relPath with
    | none =>
      simp only [h]
      constructor
      · intro _
        exact Or.inl ((findEntry_eq_none_iff entries relPath).mp h)
      · intro _
        trivial
    | some e =>
      obtain ⟨hmem, hsp⟩ := findEntry_eq_some entries relPath e h
      simp only [h]
      constructor
      · intro hb
        simp only [Bool.or_eq_true, bne_iff_ne, ne_eq, Bool.not_eq_true'] at hb
        rcases hb with ((hs | hc) | hmt) | ht
        · exact Or.inr (Or.inl ⟨e, rfl, Or.inl hs⟩)
        · exact Or.inr (Or.inl ⟨e, rfl, Or.inr (Or.inr hc)⟩)
        · exact Or.inr (Or.inl ⟨e, rfl, Or.inr (Or.inl hmt)⟩)
        · exact Or.inr (Or.inr ht)
      · intro hs
        rcases hs with hall | ⟨e', he', hd⟩ | ht
        · exact absurd hsp (hall e hmem)
        · injection he' with he'
          subst he'
          rcases hd with h1 | h1 | h1 <;> simp [h1]
        · simp [ht]
  · exact processFile_skipped

/-- C5 counterexample: on the input `'it''s'` the tokenizer does NOT return
the two tokens `["it", "s"]`; two quoted regions with no separating
whitespace accumulate into one builder, so the result is the single token
`["its"]`. -/
theorem splitCommand_adjacent_quotes_counterexample :
    splitCommand (sqStr ++ "it" ++ sqStr ++ sqStr ++ "s" ++ sqStr) ≠ ["it", "s"] ∧
    splitCommand (sqStr ++ "it" ++ sqStr ++ sqStr ++ "s" ++ sqStr) = ["its"] := by
  decide

/-- C5 amended: `a "b c" d` splits into `["a", "b c", "d"]`, `x\ y` into
`["x y"]`, `'it''s'` into the single concatenated token `["its"]` (adjacent
quoted regions with no separating whitespace always concatenate), and
`'it'\''s'` into the single token `["it's"]`. -/
theorem splitCommand_examples :
    splitCommand "a \"b c\" d" = ["a", "b c", "d"] ∧
    splitCommand "x\\ y" = ["x y"] ∧
    splitCommand (sqStr ++ "it" ++ sqStr ++ sqStr ++ "s" ++ sqStr) = ["its"] ∧
    splitCommand (sqStr ++ "it" ++ sqStr ++ "\\" ++ sqStr ++ sqStr ++ "s" ++ sqStr)
      = ["it" ++ sqStr ++ "s"] := by
  decide

/-- C7 counterexample: on a store holding valid JSON whose `size` field is
wrongly typed, `json.Unmarshal` reports a decode failure yet leaves a
partially populated, NON-empty record set in the receiver, and Load
discards the error — so the claim that any decode failure yields an empty
record set is false. -/
theorem load_partial_decode_counterexample :
    (unmarshalTypeErrW jsonTypeErrW ⟨[]⟩).2 = true ∧
    syncDB.Load ⟨[]⟩ (some jsonTypeErrW) unmarshalTypeErrW ≠ ⟨[]⟩ := by
  decide

/-- C7 amended: loading from a missing or unreadable store file leaves the
zero-value receiver empty without signaling an error; whenever Unmarshal
leaves the receiver untouched — as it does on syntactically invalid JSON,
which it validates before decoding — the loaded set equals the receiver
(empty in `main`); and Load is total, never aborting the run, whatever
state a discarded decode error leaves behind. -/
theorem load_error_paths :
    (∀ unmarshal : String → syncDB → syncDB × Bool,
      syncDB.Load ⟨[]⟩ none unmarshal = ⟨[]⟩) ∧
    (∀ (unmarshal : String → syncDB → syncDB × Bool) (data : String)
        (db : syncDB),
      (unmarshal data db).1 = db →
      syncDB.Load db (some data) unmarshal = db) ∧
    (∀ (unmarshal : String → syncDB → syncDB × Bool)
        (readResult : Option String) (db : syncDB),
      ∃ r, syncDB.Load db readResult unmarshal = r) := by
  refine ⟨fun _ => rfl, fun unmarshal data db h => ?_,
    fun unmarshal readResult db => ⟨_, rfl⟩⟩
  simp [syncDB.Load, h]

/-- C7 amended witness: a syntactically corrupt store leaves the empty
receiver empty. -/
theorem load_error_paths_witness :
    (unmarshalSyntaxErrW "not json" ⟨[]⟩).1 = ⟨[]⟩ ∧
    syncDB.Load ⟨[]⟩ (some "not json") unmarshalSyntaxErrW = ⟨[]⟩ :=
  ⟨rfl, load_error_paths.2.1 unmarshalSyntaxErrW "not json" ⟨[]⟩ rfl⟩

/-- C9: the admission filter admits a relative path iff it matches some
include pattern or matches no exclude pattern (includes override excludes);
with exclude `.*\.tmp$` and include `keep\.tmp$`, the path `keep.tmp` is
admitted and the path `other.tmp` is rejected. -/
theorem admit_policy :
    (∀ (includes excludes : List (String → Bool)) (relPath : String),
      admitPath includes excludes relPath = true ↔
        (includes.any (fun pat => pat relPath) = true ∨
         excludes.any (fun pat => pat relPath) = false)) ∧
    admitPath [matchKeepTmp] [matchAnyTmp] "keep.tmp" = true ∧
    admitPath [matchKeepTmp] [matchAnyTmp] "other.tmp" = false := by
  refine ⟨fun includes excludes relPath => ?_, by decide, by decide⟩
  unfold admitPath
  by_cases hi : includes.any (fun pat => pat relPath) <;>
    by_cases he : excludes.any (fun pat => pat relPath) <;>
    simp [hi, he]

theorem deleteWalk_all_ok (expected : List String) (ts : List (String × Bool))
    (h : ∀ t ∈ ts, t.2 = true) :
    deleteWalk expected ts =
      ((ts.filter (fun t => !isStoreOrExpected expected t.1)).map (fun t => t.1),
       false) := by
  induction ts with
  | nil => rfl
  | cons t rest ih =>
    obtain ⟨p, ok⟩ := t
    have hok : ok = true := h (p, ok) (List.mem_cons_self _ _)
    subst hok
    have hrest := ih (fun t ht => h t (List.mem_cons_of_mem _ ht))
    by_cases hs : isStoreOrExpected expected p <;>
      simp [deleteWalk, hs, hrest]

/-- C3: with the delete-removed flag set, after a run the cleanup pass
removes exactly the files under the target root whose target-relative path
is neither the store filename `.syncdb.json` nor a `TargetPath` of the new
record set (assuming each removal succeeds); no removed path is the store
file or a recorded target, and with the flag unset the pass removes
nothing. -/
theorem delete_pass_removes_exactly_orphans :
    (∀ (es : List SyncDBEntry) (targets : List (String × Bool)),
      runDeletePass false es targets = ([], false)) ∧
    (∀ (es : List SyncDBEntry) (ts : List (String × Bool)),
      (∀ t ∈ ts, t.2 = true) →
      (runDeletePass true es ts).1 =
        ((ts.filter (fun t => !isStoreOrExpected (expectedTargets es) t.1)).map
          (fun t => t.1)) ∧
      (∀ p ∈ (runDeletePass true es ts).1,
        p ≠ ".syncdb.json" ∧ p ∉ expectedTargets es)) := by
  refine ⟨fun es targets => rfl, fun es ts h => ?_⟩
  have hw := deleteWalk_all_ok (expectedTargets es) ts h
  constructor
  · simp [runDeletePass, hw]
  · intro p hp
    simp only [runDeletePass, if_true, hw, List.mem_map, List.mem_filter] at hp
    obtain ⟨t, ⟨_, hflt⟩, hpt⟩ := hp
    rw [← hpt]
    simp only [isStoreOrExpected, Bool.not_eq_true', Bool.or_eq_false_iff] at hflt
    obtain ⟨h1, h2⟩ := hflt
    constructor
    · intro hcontra
      rw [hcontra] at h1
      simp at h1
    · intro hmem
      simp [List.contains, List.elem_eq_mem, hmem] at h2

/-- C3 witness: a concrete pass over a target tree holding one recorded
target, one orphan and the store file removes exactly the orphan. -/
theorem delete_pass_removes_exactly_orphans_witness :
    (∀ t ∈ ([("song.opus", true), ("orphan.txt", true), (".syncdb.json", true)] :
        List (String × Bool)), t.2 = true) ∧
    (runDeletePass true [entryOf cfgW fW]
      [("song.opus", true), ("orphan.txt", true), (".syncdb.json", true)]).1 =
      ["orphan.txt"] := by
  refine ⟨by decide, ?_⟩
  rw [(delete_pass_removes_exactly_orphans.2 [entryOf cfgW fW]
    [("song.opus", true), ("orphan.txt", true), (".syncdb.json", true)]
    (by decide)).1]
  decide

/-- C4 counterexample: with two orphan target files where removal of the
first fails, the deletion pass stops immediately — the second orphan is not
removed, although a pass over it alone would remove it.  The claim that a
deletion failure does not abort the remaining deletions is false. -/
theorem delete_failure_aborts_counterexample :
    runDeletePass true [] [("a.txt", false), ("b.txt", true)] = ([], true) ∧
    runDeletePass true [] [("b.txt", true)] = (["b.txt"], false) := by
  decide

/-- C4 amended: a failure to delete one target file aborts the scan and
deletion of the remaining target files: only the orphans encountered before
the failing file are removed, files after it are never visited, and the
propagated walk error is discarded by the caller. -/
theorem delete_failure_aborts :
    ∀ (es : List SyncDBEntry) (ts1 : List (String × Bool)) (p : String)
      (ts2 : List (String × Bool)),
      (∀ t ∈ ts1, t.2 = true) →
      isStoreOrExpected (expectedTargets es) p = false →
      runDeletePass true es (ts1 ++ (p, false) :: ts2) =
        ((ts1.filter (fun t => !isStoreOrExpected (expectedTargets es) t.1)).map
          (fun t => t.1), true) := by
  intro es ts1 p ts2 h hp
  simp only [runDeletePass, if_true]
  induction ts1 with
  | nil => simp [deleteWalk, hp]
  | cons t rest ih =>
    obtain ⟨q, ok⟩ := t
    have hok : ok = true := h (q, ok) (List.mem_cons_self _ _)
    subst hok
    have hih := ih (fun t ht => h t (List.mem_cons_of_mem _ ht))
    by_cases hs : isStoreOrExpected (expectedTargets es) q <;>
      simp [deleteWalk, hs, hih]

/-- C4 amended witness: a concrete failing removal in the middle of the
target walk removes only the orphan before it; the orphan after it stays. -/
theorem delete_failure_aborts_witness :
    (∀ t ∈ ([("c.txt", true)] : List (String × Bool)), t.2 = true) ∧
    isStoreOrExpected (expectedTargets []) "a.txt" = false ∧
    runDeletePass true [] [("c.txt", true), ("a.txt", false), ("b.txt", true)] =
      (["c.txt"], true) := by
  refine ⟨by decide, by decide, ?_⟩
  have h := delete_failure_aborts [] [("c.txt", true)] "a.txt" [("b.txt", true)]
    (by decide) (by decide)
  simp only [List.cons_append, List.nil_append] at h
  rw [h]
  decide

theorem walkAll_err_iff (cfg : optionsType) (old : List SyncDBEntry)
    (tEx : String → Bool) (files : List WalkedFile) :
    (walkAll cfg old tEx files).2.2 = true ↔
      ∃ f ∈ files, (processFile cfg old tEx f).1 = FileAction.procFailed := by
  induction files with
  | nil => simp [walkAll_nil]
  | cons f rest ih =>
    rw [walkAll_cons]
    by_cases hf : (processFile cfg old tEx f).1 = FileAction.procFailed
    · simp [hf]
    · simp only [hf, if_false]
      simp [ih, hf]

/-- C2 counterexample: a run over a single source file whose copy fails
persists nothing — `mainRun` ends without saving the new record set, so the
set is not written unconditionally at the end of every run. -/
theorem save_unconditional_counterexample :
    mainRun cfgW [] tExNoneW [fBadW] = none ∧
    (processFile cfgW [] tExNoneW fBadW).1 = FileAction.procFailed := by
  decide

/-- C2 amended: the new record set is persisted iff the walk finishes
without a per-file error, which happens iff no walked file fails its
command execution or copy; the first per-file failure stops the walk and
the run exits without writing the store, discarding the entries
accumulated for files processed earlier in the same run. -/
theorem save_iff_walk_clean :
    ∀ (cfg : optionsType) (old : List SyncDBEntry) (tEx : String → Bool)
      (files : List WalkedFile),
      (mainRun cfg old tEx files = none ↔
        (walkAll cfg old tEx files).2.2 = true) ∧
      ((walkAll cfg old tEx files).2.2 = true ↔
        ∃ f ∈ files, (processFile cfg old tEx f).1 = FileAction.procFailed) ∧
      (mainRun cfg old tEx files = some (walkAll cfg old tEx files).1 ↔
        (walkAll cfg old tEx files).2.2 = false) := by
  intro cfg old tEx files
  refine ⟨?_, walkAll_err_iff cfg old tEx files, ?_⟩ <;>
    · unfold mainRun
      rcases hw : walkAll cfg old tEx files with ⟨es, asa, err⟩
      cases err <;> simp

/-- C8: the new record set starts empty; a walked file contributes an entry
exactly when its outcome is processed or skipped (so a skipped up-to-date
file is still appended), the entry recording the current size, modification
time, relative source and target paths and the effective command
(`entryOf`); a file outside the audio and image classes contributes
nothing; and walking one more file extends the set by exactly that
contribution (unless the walk aborts on that file). -/
theorem record_set_growth :
    ∀ (cfg : optionsType) (old : List SyncDBEntry) (tEx : String → Bool)
      (f : WalkedFile) (rest : List WalkedFile),
      (walkAll cfg old tEx ([] : List WalkedFile)).1 = [] ∧
      ((processFile cfg old tEx f).2 =
        if (processFile cfg old tEx f).1 = FileAction.processed ∨
            (processFile cfg old tEx f).1 = FileAction.skipped then
          some (entryOf cfg f)
        else none) ∧
      ((processFile cfg old tEx f).1 = FileAction.notMedia ↔ mediaOf cfg f = false) ∧
      ((walkAll cfg old tEx (f :: rest)).1 =
        if (processFile cfg old tEx f).1 = FileAction.procFailed then []
        else (processFile cfg old tEx f).2.toList ++ (walkAll cfg old tEx rest).1) := by
  intro cfg old tEx f rest
  refine ⟨rfl, processFile_snd cfg old tEx f, processFile_notMedia cfg old tEx f, ?_⟩
  rw [walkAll_cons]
  by_cases hf : (processFile cfg old tEx f).1 = FileAction.procFailed <;> simp [hf]

theorem string_mk_ne_empty (current : List Char) (h : 0 < current.length) :
    String.mk current ≠ "" := by
  intro hEq
  have hdata := congrArg String.data hEq
  simp only [] at hdata
  rw [hdata] at h
  simp at h

theorem splitCommandAux_tokens (cs : List Char) :
    ∀ (args : List String) (current : List Char) (q : Option Char) (esc : Bool),
      (∀ a ∈ args, a ≠ "") →
      ∀ t ∈ splitCommandAux args current q esc cs, t ≠ "" := by
  induction cs with
  | nil =>
    intro args current q esc h t ht
    simp only [splitCommandAux] at ht
    by_cases hc : current.length > 0
    · rw [if_pos hc] at ht
      rcases List.mem_append.mp ht with h1 | h1
      · exact h t h1
      · rcases List.mem_singleton.mp h1 with rfl
        exact string_mk_ne_empty current hc
    · rw [if_neg hc] at ht
      exact h t ht
  | cons r cs ih =>
    intro args current q esc h t ht
    simp only [splitCommandAux] at ht
    by_cases he : esc = true
    · rw [if_pos he] at ht
      exact ih _ _ _ _ h t ht
    · rw [if_neg he] at ht
      by_cases hb : r = '\\'
      · rw [if_pos hb] at ht
        exact ih _ _ _ _ h t ht
      · rw [if_neg hb] at ht
        by_cases hq : (decide (r = sqChar) || decide (r = '"')) = true
        · rw [if_pos hq] at ht
          cases q with
          | none => exact ih _ _ _ _ h t ht
          | some qc =>
            simp only [] at ht
            by_cases hqc : qc = r
            · rw [if_pos hqc] at ht
              exact ih _ _ _ _ h t ht
            · rw [if_neg hqc] at ht
              exact ih _ _ _ _ h t ht
        · rw [if_neg hq] at ht
          by_cases hw : goIsSpace r = true
          · rw [if_pos hw] at ht
            cases q with
            | none =>
              simp only [] at ht
              by_cases hc : (decide (current.length > 0) || !goIsSpace r) = true
              · rw [if_pos hc] at ht
                refine ih _ _ _ _ ?_ t ht
                intro a ha
                rcases List.mem_append.mp ha with h1 | h1
                · exact h a h1
                · rcases List.mem_singleton.mp h1 with rfl
                  refine string_mk_ne_empty current ?_
                  rw [hw] at hc
                  simpa using hc
              · rw [if_neg hc] at ht
                exact ih _ _ _ _ h t ht
            | some qc => exact ih _ _ _ _ h t ht
          · rw [if_neg hw] at ht
            exact ih _ _ _ _ h t ht

/-- C10: every token produced by `splitCommand` is a non-empty string; an
explicitly quoted empty region (`""` or two adjacent single quotes)
contributes no token, and an input of pure whitespace yields the empty
token list. -/
theorem splitCommand_tokens_nonempty :
    (∀ (cmd t : String), t ∈ splitCommand cmd → t ≠ "") ∧
    splitCommand "\"\"" = [] ∧
    splitCommand (sqStr ++ sqStr) = [] ∧
    splitCommand "  \t " = [] := by
  refine ⟨?_, by decide, by decide, by decide⟩
  intro cmd t ht
  exact splitCommandAux_tokens cmd.data [] [] none false (by simp) t ht

/-- C10 witness: the single token of the input `ab` is non-empty. -/
theorem splitCommand_tokens_nonempty_witness :
    "ab" ∈ splitCommand "ab" ∧ ("ab" : String) ≠ "" :=
  ⟨by decide, splitCommand_tokens_nonempty.1 "ab" "ab" (by decide)⟩

theorem mainRun_eq (cfg : optionsType) (old : List SyncDBEntry)
    (tEx : String → Bool) (files : List WalkedFile) :
    mainRun cfg old tEx files =
      if (walkAll cfg old tEx files).2.2 = true then none
      else some (walkAll cfg old tEx files).1 := by
  unfold mainRun
  rcases hw : walkAll cfg old tEx files with ⟨es, asa, err⟩
  cases err <;> simp

theorem processFile_some_entry (cfg : optionsType) (old : List SyncDBEntry)
    (tEx : String → Bool) (f : WalkedFile) (e : SyncDBEntry)
    (h : (processFile cfg old tEx f).2 = some e) : e = entryOf cfg f := by
  have hs := processFile_snd cfg old tEx f
  rw [h] at hs
  by_cases hc : (processFile cfg old tEx f).1 = FileAction.processed ∨
      (processFile cfg old tEx f).1 = FileAction.skipped
  · rw [if_pos hc] at hs
    exact (Option.some.injEq _ _ ▸ hs)
  · rw [if_neg hc] at hs
    exact absurd hs (by simp)

theorem walkAll_clean (cfg : optionsType) (old : List SyncDBEntry)
    (tEx : String → Bool) (files : List WalkedFile)
    (hcl : ∀ f ∈ files, (processFile cfg old tEx f).1 ≠ FileAction.procFailed) :
    walkAll cfg old tEx files =
      (files.filterMap (fun g => (processFile cfg old tEx g).2),
       files.map (fun g => (processFile cfg old tEx g).1),
       false) := by
  induction files with
  | nil => rfl
  | cons f rest ih =>
    have hf : (processFile cfg old tEx f).1 ≠ FileAction.procFailed :=
      hcl f (List.mem_cons_self _ _)
    have hrest := ih (fun g hg => hcl g (List.mem_cons_of_mem _ hg))
    rw [walkAll_cons, if_neg hf, hrest]
    cases heo : (processFile cfg old tEx f).2 <;>
      simp [List.filterMap_cons, heo]

theorem findEntry_filterMap_fresh (cfg : optionsType) (old : List SyncDBEntry)
    (tEx : String → Bool) (gs : List WalkedFile) (rp : String)
    (h : rp ∉ gs.map (fun g => g.relPath)) :
    findEntry (gs.filterMap (fun g => (processFile cfg old tEx g).2)) rp = none := by
  induction gs with
  | nil => rfl
  | cons g gs ih =>
    rw [List.map_cons, List.mem_cons] at h
    push_neg at h
    obtain ⟨hne, hgs⟩ := h
    rw [List.filterMap_cons]
    cases heo : (processFile cfg old tEx g).2 with
    | none => exact ih hgs
    | some e =>
      have he : e = entryOf cfg g := processFile_some_entry cfg old tEx g e heo
      unfold findEntry
      rw [List.find?_cons_of_neg, ← findEntry]
      · exact ih hgs
      · simp [he, entryOf, Ne.symm hne]

theorem findEntry_filterMap_self (cfg : optionsType) (old : List SyncDBEntry)
    (tEx : String → Bool) (files : List WalkedFile) (f : WalkedFile)
    (hnd : (files.map (fun g => g.relPath)).Nodup) (hf : f ∈ files) :
    findEntry (files.filterMap (fun g => (processFile cfg old tEx g).2)) f.relPath =
      (processFile cfg old tEx f).2 := by
  induction files with
  | nil => cases hf
  | cons g gs ih =>
    rw [List.map_cons, List.nodup_cons] at hnd
    obtain ⟨hg, hgs⟩ := hnd
    rw [List.filterMap_cons]
    rcases List.mem_cons.mp hf with rfl | hfgs
    · cases heo : (processFile cfg old tEx f).2 with
      | none =>
        rw [← heo]
        exact heo ▸ findEntry_filterMap_fresh cfg old tEx gs f.relPath hg
      | some e =>
        have he : e = entryOf cfg f := processFile_some_entry cfg old tEx f e heo
        unfold findEntry
        rw [List.find?_cons_of_pos, ← heo]
        simp [he, entryOf]
    · have hne : g.relPath ≠ f.relPath := by
        intro hc
        exact hg (hc ▸ List.mem_map_of_mem _ hfgs)
      cases heo : (processFile cfg old tEx g).2 with
      | none => exact ih hgs hfgs
      | some e =>
        have he : e = entryOf cfg g := processFile_some_entry cfg old tEx g e heo
        unfold findEntry
        rw [List.find?_cons_of_neg, ← findEntry]
        · exact ih hgs hfgs
        · simp [he, entryOf, hne]

theorem processFile_second_skip (cfg : optionsType) (db1 : List SyncDBEntry)
    (tEx2 : String → Bool) (f : WalkedFile) (hm : mediaOf cfg f = true)
    (hfind : findEntry db1 f.relPath = some (entryOf cfg f))
    (ht : tEx2 (targetRelOf cfg f) = true) :
    processFile cfg db1 tEx2 f = (FileAction.skipped, some (entryOf cfg f)) := by
  have hnp : needsProcessing db1 f.relPath f.size f.modTime (cmdOf cfg f)
      (tEx2 (targetRelOf cfg f)) = false := by
    rw [ht]
    simp [needsProcessing, hfind, entryOf]
  have h1 : (processFile cfg db1 tEx2 f).1 = FileAction.skipped :=
    (processFile_skipped _ _ _ _).mpr ⟨hm, hnp⟩
  have h2 := processFile_snd cfg db1 tEx2 f
  rw [h1] at h2
  simp only [or_true, if_true] at h2
  rcases hp : processFile cfg db1 tEx2 f with ⟨a, eo⟩
  rw [hp] at h1 h2
  simp only [] at h1 h2
  rw [h1, h2]

theorem processFile_second_empty (cfg : optionsType) (db1 : List SyncDBEntry)
    (tEx2 : String → Bool) (f : WalkedFile)
    (hfind : findEntry db1 f.relPath = none) (hm : mediaOf cfg f = true)
    (hc : cmdOf cfg f ≠ "") (hsp : splitCommand (cmdOf cfg f) = []) :
    processFile cfg db1 tEx2 f = (FileAction.emptyCommand, none) := by
  have hnp : needsProcessing db1 f.relPath f.size f.modTime (cmdOf cfg f)
      (tEx2 (targetRelOf cfg f)) = true := by
    simp [needsProcessing, hfind]
  have h1 : (processFile cfg db1 tEx2 f).1 = FileAction.emptyCommand :=
    (processFile_emptyCommand _ _ _ _).mpr ⟨hm, hnp, hc, hsp⟩
  have h2 := processFile_snd cfg db1 tEx2 f
  rw [h1] at h2
  simp only [reduceCtorEq, or_self, if_false] at h2
  rcases hp : processFile cfg db1 tEx2 f with ⟨a, eo⟩
  rw [hp] at h1 h2
  simp only [] at h1 h2
  rw [h1, h2]

theorem second_run_step (cfg : optionsType) (old : List SyncDBEntry)
    (tEx1 tEx2 : String → Bool) (files : List WalkedFile) (db1 : List SyncDBEntry)
    (hdb1 : db1 = files.filterMap (fun g => (processFile cfg old tEx1 g).2))
    (hnd : (files.map (fun g => g.relPath)).Nodup)
    (hclean1 : ∀ g ∈ files, (processFile cfg old tEx1 g).1 ≠ FileAction.procFailed)
    (h3 : ∀ g ∈ files, mediaOf cfg g = true → tEx2 (targetRelOf cfg g) = true)
    (f : WalkedFile) (hf : f ∈ files) :
    (processFile cfg db1 tEx2 f).2 = (processFile cfg old tEx1 f).2 ∧
    (processFile cfg db1 tEx2 f).1 ≠ FileAction.processed ∧
    (processFile cfg db1 tEx2 f).1 ≠ FileAction.procFailed := by
  have hfind : findEntry db1 f.relPath = (processFile cfg old tEx1 f).2 := by
    rw [hdb1]
    exact findEntry_filterMap_self cfg old tEx1 files f hnd hf
  by_cases hm : mediaOf cfg f = true
  · cases hc1 : (processFile cfg old tEx1 f).2 with
    | some e =>
      have he : e = entryOf cfg f := processFile_some_entry cfg old tEx1 f e hc1
      rw [hc1, he] at hfind
      have hskip := processFile_second_skip cfg db1 tEx2 f hm hfind (h3 f hf hm)
      rw [hskip]
      exact ⟨by simp [he], by simp, by simp⟩
    | none =>
      rw [hc1] at hfind
      have hne1 : (processFile cfg old tEx1 f).1 ≠ FileAction.notMedia := by
        intro hcon
        have := (processFile_notMedia cfg old tEx1 f).mp hcon
        rw [this] at hm
        exact absurd hm (by simp)
      have hne2 : ¬((processFile cfg old tEx1 f).1 = FileAction.processed ∨
          (processFile cfg old tEx1 f).1 = FileAction.skipped) := by
        intro hcon
        have := processFile_snd cfg old tEx1 f
        rw [if_pos hcon, hc1] at this
        exact absurd this (by simp)
      have hemp : (processFile cfg old tEx1 f).1 = FileAction.emptyCommand := by
        cases hcase : (processFile cfg old tEx1 f).1 with
        | notMedia => exact absurd hcase hne1
        | emptyCommand => rfl
        | procFailed => exact absurd hcase (hclean1 f hf)
        | processed => exact absurd (Or.inl hcase) hne2
        | skipped => exact absurd (Or.inr hcase) hne2
      obtain ⟨_, _, hcmd, hsp⟩ := (processFile_emptyCommand cfg old tEx1 f).mp hemp
      have hres := processFile_second_empty cfg db1 tEx2 f hfind hm hcmd hsp
      rw [hres]
      exact ⟨rfl, by simp, by simp⟩
  · have hmf : mediaOf cfg f = false := by simpa using hm
    rw [processFile_of_notMedia cfg old tEx1 f hmf,
      processFile_of_notMedia cfg db1 tEx2 f hmf]
    exact ⟨rfl, by simp, by simp⟩

/-- C6: if a run starting from any previous record set persists the record
set `db1`, then a second run over the same walked source files (unchanged
stats, same configuration) against `db1`, with every media target present
on disk, performs no command execution and no copy (no action is
`processed`, none fails) and persists exactly `db1` again — record sets and
hence stored bytes are identical. -/
theorem second_run_idempotent :
    ∀ (cfg : optionsType) (old : List SyncDBEntry) (tEx1 tEx2 : String → Bool)
      (files : List WalkedFile) (db1 : List SyncDBEntry),
      mainRun cfg old tEx1 files = some db1 →
      (files.map (fun f => f.relPath)).Nodup →
      (∀ f ∈ files, mediaOf cfg f = true → tEx2 (targetRelOf cfg f) = true) →
      mainRun cfg db1 tEx2 files = some db1 ∧
      (∀ a ∈ (walkAll cfg db1 tEx2 files).2.1,
        a ≠ FileAction.processed ∧ a ≠ FileAction.procFailed) := by
  intro cfg old tEx1 tEx2 files db1 h1 hnd h3
  rw [mainRun_eq] at h1
  by_cases herr : (walkAll cfg old tEx1 files).2.2 = true
  · rw [if_pos herr] at h1
    exact absurd h1 (by simp)
  rw [if_neg herr] at h1
  have herr1 : (walkAll cfg old tEx1 files).2.2 = false := by
    simpa using herr
  have hclean1 : ∀ g ∈ files, (processFile cfg old tEx1 g).1 ≠ FileAction.procFailed := by
    intro g hg hcon
    have := (walkAll_err_iff cfg old tEx1 files).mpr ⟨g, hg, hcon⟩
    rw [herr1] at this
    exact absurd this (by simp)
  have hdb1 : db1 = files.filterMap (fun g => (processFile cfg old tEx1 g).2) := by
    have := walkAll_clean cfg old tEx1 files hclean1
    rw [this] at h1
    exact (Option.some.injEq _ _ ▸ h1).symm
  have hstep := second_run_step cfg old tEx1 tEx2 files db1 hdb1 hnd hclean1 h3
  have hclean2 : ∀ g ∈ files, (processFile cfg db1 tEx2 g).1 ≠ FileAction.procFailed :=
    fun g hg => (hstep g hg).2.2
  have hw2 := walkAll_clean cfg db1 tEx2 files hclean2
  constructor
  · rw [mainRun_eq, hw2]
    rw [List.filterMap_congr (fun g hg => (hstep g hg).1), ← hdb1]
    simp
  · intro a ha
    rw [hw2] at ha
    simp only [List.mem_map] at ha
    obtain ⟨g, hg, hga⟩ := ha
    rw [← hga]
    exact ⟨(hstep g hg).2.1, (hstep g hg).2.2⟩

/-- C6 witness: a concrete first run copies one file and records it; the
second run over the unchanged file with the target present saves the
identical record set. -/
theorem second_run_idempotent_witness :
    ((([fW].map (fun f => f.relPath)).Nodup) ∧
      mainRun cfgW [] tExNoneW [fW] = some [entryOf cfgW fW]) ∧
    mainRun cfgW [entryOf cfgW fW] tExAllW [fW] = some [entryOf cfgW fW] :=
  ⟨⟨by decide, by decide⟩,
    (second_run_idempotent cfgW [] tExNoneW tExAllW [fW] [entryOf cfgW fW]
      (by decide) (by decide) (by decide)).1⟩

end SimpleMusicSync
